import Mathlib

/-!
Verification of the KGX-storage virtual-filesystem layer.

Shallow embedding of `compute_metrics.py` and `web_server.py`:
the S3 bucket is a finite list of `ObjectMeta` records; keys are `List Char`
(the repository uses the character `/` as hierarchy delimiter); timestamps are
`Nat` (UTC instants); the store listing primitives are derived from the S3
contract (`Prefix` filtering, `Delimiter` grouping into common prefixes,
`head_object` exact-key lookup).  `ClientError` outcomes of individual store
calls are modelled by explicit boolean error flags at the call sites where the
source catches them.  Display-only strings (`size_display`, HTML rendering,
breadcrumbs) are omitted: no claim mentions them.
-/

/-- Metadata of one stored object, as surfaced by the S3 listing API:
a key, a byte size, and a last-modified timestamp. -/
structure ObjectMeta where
  key : List Char
  size : Nat
  modified : Nat
deriving DecidableEq

/-- Python `key.startswith(p)` / the S3 `Prefix=p` filter on keys. -/
def startsWith : List Char → List Char → Bool
  | [], _ => true
  | _ :: _, [] => false
  | a :: as, b :: bs => a == b && startsWith as bs

theorem startsWith_iff (p : List Char) : ∀ l, startsWith p l = true ↔ ∃ t, l = p ++ t := by
  induction p with
  | nil => intro l; simp [startsWith]
  | cons a as ih =>
    intro l
    cases l with
    | nil => simp [startsWith]
    | cons b bs =>
      simp only [startsWith, Bool.and_eq_true, beq_iff_eq, ih bs, List.cons_append,
        List.cons.injEq]
      constructor
      · rintro ⟨hab, t, ht⟩; exact ⟨t, hab.symm, ht⟩
      · rintro ⟨t, hab, ht⟩; exact ⟨hab.symm, t, ht⟩

theorem startsWith_append (p t : List Char) : startsWith p (p ++ t) = true :=
  (startsWith_iff p (p ++ t)).2 ⟨t, rfl⟩

theorem startsWith_self (p : List Char) : startsWith p p = true := by
  have := startsWith_append p []
  simpa using this

theorem startsWith_trans {a b l : List Char} (h1 : startsWith a b = true)
    (h2 : startsWith b l = true) : startsWith a l = true := by
  obtain ⟨t2, rfl⟩ := (startsWith_iff b l).1 h2
  obtain ⟨t1, rfl⟩ := (startsWith_iff a b).1 h1
  exact (startsWith_iff a _).2 ⟨t1 ++ t2, by simp⟩

theorem startsWith_length {p l : List Char} (h : startsWith p l = true) :
    p.length ≤ l.length := by
  obtain ⟨t, rfl⟩ := (startsWith_iff p l).1 h
  simp

theorem startsWith_antisymm {p l : List Char} (h1 : startsWith p l = true)
    (h2 : l.length ≤ p.length) : p = l := by
  obtain ⟨t, rfl⟩ := (startsWith_iff p l).1 h1
  have ht : t.length = 0 := by
    simp only [List.length_append] at h2
    omega
  rw [List.eq_nil_of_length_eq_zero ht, List.append_nil]

/-- Two leading segments of the same key are comparable. -/
theorem startsWith_comparable : ∀ {a b l : List Char}, startsWith a l = true →
    startsWith b l = true → startsWith a b = true ∨ startsWith b a = true := by
  intro a
  induction a with
  | nil => intro b l _ _; left; rfl
  | cons x xs ih =>
    intro b l ha hb
    cases b with
    | nil => right; rfl
    | cons y ys =>
      cases l with
      | nil => simp [startsWith] at ha
      | cons z zs =>
        simp only [startsWith, Bool.and_eq_true, beq_iff_eq] at ha hb
        obtain ⟨hxz, ha2⟩ := ha
        obtain ⟨hyz, hb2⟩ := hb
        subst hxz
        subst hyz
        rcases ih ha2 hb2 with h | h
        · left; simp [startsWith, h]
        · right; simp [startsWith, h]

/-- Per-directory aggregate record, mirroring the dict built by
`get_folder_stats`: total recursive byte size, recursive object count, and the
most recent last-modified timestamp (`none` plays the role of the `"-"`
marker used when no object was seen).  The derived `size_display` string is
omitted (pure formatting of `size`). -/
structure FolderStats where
  size : Nat
  file_count : Nat
  modified : Option Nat
deriving DecidableEq

/-- Body of the aggregation loop of `get_folder_stats`
(`total_size += obj.Size; file_count += 1; latest = max`). -/
def statStep (acc : FolderStats) (o : ObjectMeta) : FolderStats :=
  { size := acc.size + o.size
    file_count := acc.file_count + 1
    modified :=
      match acc.modified with
      | none => some o.modified
      | some m => if m < o.modified then some o.modified else some m }

/-- The streaming aggregation shared verbatim by
`compute_metrics.get_folder_stats` and the fallback path of
`web_server.get_folder_stats`: paginate over every object whose key starts
with the requested string (S3 `Prefix` filter, no delimiter) and fold
`statStep` over them. -/
def aggregateStats (store : List ObjectMeta) (pfx : List Char) : FolderStats :=
  (store.filter (fun o => startsWith pfx o.key)).foldl statStep ⟨0, 0, none⟩

/-- The `latest_modified` accumulator of the loop, isolated. -/
def maxStep (md : Option Nat) (ts : List Nat) : Option Nat :=
  ts.foldl (fun a t =>
    match a with
    | none => some t
    | some m => if m < t then some t else some m) md

theorem maxStep_some (ts : List Nat) : ∀ m, maxStep (some m) ts = some (ts.foldl max m) := by
  induction ts with
  | nil => intro m; rfl
  | cons t ts ih =>
    intro m
    show maxStep (if m < t then some t else some m) ts = some (ts.foldl max (max m t))
    rcases Nat.lt_or_ge m t with h | h
    · rw [if_pos h, ih, Nat.max_eq_right (Nat.le_of_lt h)]
    · rw [if_neg (Nat.not_lt.2 h), ih, Nat.max_eq_left h]

theorem maxStep_none_eq_max? (ts : List Nat) : maxStep none ts = ts.max? := by
  cases ts with
  | nil => rfl
  | cons t ts =>
    show maxStep (some t) ts = _
    rw [maxStep_some]
    rfl

theorem foldl_statStep (l : List ObjectMeta) :
    ∀ s c md, l.foldl statStep ⟨s, c, md⟩ =
      ⟨s + (l.map (fun o => o.size)).sum, c + l.length,
        maxStep md (l.map (fun o => o.modified))⟩ := by
  induction l with
  | nil => intro s c md; simp [maxStep]
  | cons o l ih =>
    intro s c md
    show l.foldl statStep (statStep ⟨s, c, md⟩ o) = _
    rw [show statStep ⟨s, c, md⟩ o = ⟨s + o.size, c + 1,
          match md with
          | none => some o.modified
          | some m => if m < o.modified then some o.modified else some m⟩ from rfl,
      ih]
    simp only [List.map_cons, List.sum_cons, List.length_cons]
    rw [FolderStats.mk.injEq]
    exact ⟨by omega, by omega, rfl⟩

namespace ComputeMetrics

/-- `compute_metrics.get_folder_stats`: the aggregation wrapped in
`try/except` — a `ClientError` while paginating (modelled by the `err` flag)
yields `None`, otherwise the aggregated stats dict. -/
def get_folder_stats (store : List ObjectMeta) (pfx : List Char) (err : Bool) :
    Option FolderStats :=
  if err then none else some (aggregateStats store pfx)

end ComputeMetrics

namespace WebServer

/-- `web_server.get_folder_stats`: return the precomputed entry of the loaded
metrics snapshot when present, else fall back to the live aggregation (the
same loop as `compute_metrics`; an exception here propagates to the caller and
is modelled there). -/
def get_folder_stats (cache : List (List Char × FolderStats))
    (store : List ObjectMeta) (pfx : List Char) : FolderStats :=
  match List.lookup pfx cache with
  | some s => s
  | none => aggregateStats store pfx

end WebServer

theorem aggregateStats_eq (store : List ObjectMeta) (pfx : List Char) :
    aggregateStats store pfx =
      ⟨((store.filter (fun o => startsWith pfx o.key)).map (fun o => o.size)).sum,
        (store.filter (fun o => startsWith pfx o.key)).length,
        ((store.filter (fun o => startsWith pfx o.key)).map (fun o => o.modified)).max?⟩ := by
  unfold aggregateStats
  rw [foldl_statStep]
  simp [maxStep_none_eq_max?]

/-- C1.  For every prefix string, the aggregation (`get_folder_stats` in
`compute_metrics.py`, and the fallback path of `get_folder_stats` in
`web_server.py`) returns stats whose `size` is the sum of the sizes of all
objects whose key starts with the prefix, whose `file_count` is the number of
such objects, and whose `modified` is the most recent last-modified timestamp
among them (`List.max?`), or the `none` marker when that count is `0`. -/
theorem c1_folder_stats_aggregation (store : List ObjectMeta) (pfx : List Char)
    (cache : List (List Char × FolderStats))
    (hmiss : List.lookup pfx cache = none) :
    (aggregateStats store pfx).size
        = ((store.filter (fun o => startsWith pfx o.key)).map (fun o => o.size)).sum
      ∧ (aggregateStats store pfx).file_count
        = (store.filter (fun o => startsWith pfx o.key)).length
      ∧ (aggregateStats store pfx).modified
        = ((store.filter (fun o => startsWith pfx o.key)).map (fun o => o.modified)).max?
      ∧ ((aggregateStats store pfx).modified = none
          ↔ (store.filter (fun o => startsWith pfx o.key)).length = 0)
      ∧ ComputeMetrics.get_folder_stats store pfx false = some (aggregateStats store pfx)
      ∧ WebServer.get_folder_stats cache store pfx = aggregateStats store pfx := by
  have he := aggregateStats_eq store pfx
  refine ⟨?_, ?_, ?_, ?_, rfl, ?_⟩
  · rw [he]
  · rw [he]
  · rw [he]
  · rw [he]
    simp only [List.max?_eq_none_iff, List.map_eq_nil_iff, List.length_eq_zero]
  · unfold WebServer.get_folder_stats
    rw [hmiss]

/-- Concrete store used by the C1 witness. -/
def c1store : List ObjectMeta :=
  [⟨"a/x".toList, 3, 10⟩, ⟨"a/y".toList, 4, 7⟩, ⟨"b".toList, 9, 99⟩]

theorem c1_witness :
    (aggregateStats c1store "a/".toList).size = 7
      ∧ (aggregateStats c1store "a/".toList).file_count = 2
      ∧ (aggregateStats c1store "a/".toList).modified = some 10
      ∧ WebServer.get_folder_stats [] c1store "a/".toList
          = aggregateStats c1store "a/".toList := by
  have h := c1_folder_stats_aggregation c1store "a/".toList [] rfl
  refine ⟨?_, ?_, ?_, h.2.2.2.2.2⟩
  · rw [h.1]; decide
  · rw [h.2.1]; decide
  · rw [h.2.2.1]; decide

/-- Python `path.endswith("/")`. -/
def endsWithSlash (l : List Char) : Bool :=
  l.getLast? == some '/'

/-- Python `path.rstrip("/")`: remove every trailing delimiter. -/
def rstripSlash (l : List Char) : List Char :=
  (l.reverse.dropWhile (fun c => c == '/')).reverse

/-- The reserved top-level route names of `browse_path`
(`("view", "download", "docs", "public")`). -/
def reservedNames : List (List Char) :=
  ["view".toList, "download".toList, "docs".toList, "public".toList]

/-- The guard `folder_path.rstrip("/") in ("view", "download", "docs", "public")`. -/
def isReservedPath (path : List Char) : Bool :=
  reservedNames.contains (rstripSlash path)

/-- Python `s.lower()` on a key. -/
def lowerStr (l : List Char) : List Char :=
  l.map Char.toLower

/-- Python `l.endswith(suf)`. -/
def endsWithList (suf l : List Char) : Bool :=
  startsWith suf.reverse l.reverse

/-- The JSON test of `browse_path`: `folder_path.lower().endswith(".json")`
(the source decides the structured-text format from the key name). -/
def isJsonName (path : List Char) : Bool :=
  endsWithList ".json".toList (lowerStr path)

/-- `s3_head_object`: exact-key metadata probe; the source catches
`ClientError` (both a 404 and a transient failure, modelled by `err`) and
returns `None`. -/
def s3_head_object (store : List ObjectMeta) (key : List Char) (err : Bool) :
    Option ObjectMeta :=
  if err then none else store.find? (fun o => o.key == key)

/-- `prefix_has_contents`: `list_objects_v2(Prefix=pfx, Delimiter="/",
MaxKeys=1)` is non-empty iff some stored key starts with `pfx` (every such key
surfaces either in `Contents` or inside a `CommonPrefixes` group).  The source
catches `ClientError` (modelled by `err`) and returns `False`. -/
def prefix_has_contents (store : List ObjectMeta) (pfx : List Char) (err : Bool) :
    Bool :=
  if err then false else store.any (fun o => startsWith pfx o.key)

/-- The `CommonPrefixes` entry that the key `key` contributes to a
`Delimiter="/"` listing of `pfx`: defined when `key` starts with `pfx` and its
remainder still contains a delimiter; the group is `pfx` plus the remainder's
first segment plus the delimiter. -/
def childPfxOf (pfx key : List Char) : Option (List Char) :=
  if startsWith pfx key then
    let r := key.drop pfx.length
    if r.any (fun c => c == '/') then
      some (pfx ++ r.takeWhile (fun c => !(c == '/')) ++ ['/'])
    else none
  else none

/-- The `CommonPrefixes` of a one-level (`Delimiter="/"`) listing of `pfx`:
the distinct child groups contributed by the stored keys. -/
def commonPrefixes (store : List ObjectMeta) (pfx : List Char) : List (List Char) :=
  (store.filterMap (fun o => childPfxOf pfx o.key)).dedup

/-- The `Contents` of a one-level (`Delimiter="/"`) listing of `pfx`: objects
whose key starts with `pfx` and whose remainder holds no further delimiter
(this includes an object stored at exactly the key `pfx`). -/
def levelObjects (store : List ObjectMeta) (pfx : List Char) : List ObjectMeta :=
  store.filter (fun o =>
    startsWith pfx o.key && !((o.key.drop pfx.length).any (fun c => c == '/')))

/-- Lexicographic (code-point) order on character lists, the order Python's
`sorted` uses on strings. -/
def lexLeB : List Char → List Char → Bool
  | [], _ => true
  | _ :: _, [] => false
  | a :: as, b :: bs => if a < b then true else if b < a then false else lexLeB as bs

/-- The `key=lambda x: x["name"].lower()` sort key comparison. -/
def nameLe (x y : List Char) : Bool :=
  lexLeB (lowerStr x) (lowerStr y)

/-- A child-directory row of `list_directory` (display string omitted). -/
structure FolderEntry where
  name : List Char
  path : List Char
  size : Nat
  file_count : Nat
  modified : Option Nat
deriving DecidableEq

/-- A child-file row of `list_directory` (display string omitted). -/
structure FileEntry where
  name : List Char
  path : List Char
  size : Nat
  modified : Nat
deriving DecidableEq

/-- The directory view assembled by `browse_directory`: the one-level listing
plus the aggregate totals handed to the HTML template (presentation-only
fields — breadcrumbs, parent, formatted sizes — omitted). -/
structure DirView where
  path : List Char
  folders : List FolderEntry
  files : List FileEntry
  total_size : Nat
  total_files : Nat
deriving DecidableEq

/-- Outcome of one request, abstracting the HTTP responses the source
produces: 404 page, 500 from a caught store error, rendered directory, a
HEAD-only metadata reply, the inline JSON viewer, a JSON body passthrough, a
redirect to a presigned download URL, the 500 when no presigned URL could be
generated, and a plain redirect (target path carries no query string, since
the source redirects to `request.path` or to a literal). -/
inductive BrowseResult where
  | notFound
  | serverError
  | directory (view : DirView)
  | headOnly (size : Nat) (modified : Nat)
  | viewer (key : List Char)
  | jsonBody (key : List Char)
  | downloadRedirect (key : List Char)
  | urlError
  | redirect (target : List Char) (code : Nat)
deriving DecidableEq

namespace WebServer

/-- `list_directory`: one-level listing of a prefix.  Folders come from the
`CommonPrefixes` with stats attached through `get_folder_stats`; files come
from the `Contents`, skipping an object whose key equals the prefix itself;
both lists are sorted case-insensitively by name. -/
def list_directory (cache : List (List Char × FolderStats))
    (store : List ObjectMeta) (pfx : List Char) :
    List FolderEntry × List FileEntry :=
  let folders := (commonPrefixes store pfx).map (fun fp =>
    let stats := get_folder_stats cache store fp
    { name := rstripSlash (fp.drop pfx.length), path := fp,
      size := stats.size, file_count := stats.file_count,
      modified := stats.modified : FolderEntry })
  let files := ((levelObjects store pfx).filter (fun o => !(o.key == pfx))).map
    (fun o => { name := o.key.drop pfx.length, path := o.key,
                size := o.size, modified := o.modified : FileEntry })
  (List.insertionSort (fun a b => nameLe a.name b.name = true) folders,
   List.insertionSort (fun a b => nameLe a.name b.name = true) files)

/-- The view `browse_directory` renders on success: normalize the path to a
trailing-delimiter form, list one level, and compute the aggregate totals
(sum of child-folder stats plus sum of immediate child files). -/
def buildView (cache : List (List Char × FolderStats))
    (store : List ObjectMeta) (path : List Char) : DirView :=
  let p2 := if !path.isEmpty && !endsWithSlash path then path ++ ['/'] else path
  let fs := list_directory cache store p2
  { path := p2, folders := fs.1, files := fs.2,
    total_size := (fs.1.map (fun f => f.size)).sum + (fs.2.map (fun f => f.size)).sum,
    total_files := (fs.1.map (fun f => f.file_count)).sum + fs.2.length }

/-- `browse_directory`: render the directory view, or a 500 when the listing
raised `ClientError` (modelled by `listErr`). -/
def browse_directory (cache : List (List Char × FolderStats))
    (store : List ObjectMeta) (path : List Char) (listErr : Bool) : BrowseResult :=
  if listErr then .serverError else .directory (buildView cache store path)

/-- `browse_path`, the catch-all resolver: reserved-name guard, then
trailing-delimiter paths are rendered as directories, otherwise an exact-key
head probe decides file service (HEAD reply / `?view` JSON viewer / `?view`
non-JSON canonical redirect / JSON body / presigned-URL redirect), and on a
head miss a non-empty `path + "/"` prefix yields a 302 to the canonical
directory URL, else 404.  `isHead` is `request.method == "HEAD"`, `hasView`
is `"view" in request.args`; `headErr`, `pfxErr`, `listErr` model
`ClientError` in the respective store calls, `presignOk` models
`generate_presigned_url` succeeding. -/
def browse_path (cache : List (List Char × FolderStats))
    (store : List ObjectMeta) (path : List Char)
    (isHead hasView headErr pfxErr listErr presignOk : Bool) : BrowseResult :=
  if isReservedPath path then .notFound
  else if endsWithSlash path then browse_directory cache store path listErr
  else
    match s3_head_object store path headErr with
    | some o =>
      if isHead then .headOnly o.size o.modified
      else if hasView then
        if isJsonName path then .viewer path
        else .redirect ('/' :: path) 302
      else if isJsonName path then .jsonBody path
      else if presignOk then .downloadRedirect path
      else .urlError
    | none =>
      if prefix_has_contents store (path ++ ['/']) pfxErr then
        .redirect ('/' :: path ++ ['/']) 302
      else .notFound

/-- The `/` route: a non-empty legacy `?path=` query parameter is appended a
trailing delimiter when it lacks one and permanently (301) redirected to the
path-based URL; otherwise the root directory is rendered. -/
def index (cache : List (List Char × FolderStats)) (store : List ObjectMeta)
    (pathParam : List Char) (listErr : Bool) : BrowseResult :=
  if !pathParam.isEmpty then
    .redirect
      ('/' :: (if endsWithSlash pathParam then pathParam else pathParam ++ ['/'])) 301
  else browse_directory cache store [] listErr

end WebServer

/-- File-service responses for a slash-free path `p`: the HEAD metadata reply,
the JSON viewer, the JSON body, the presigned-download redirect, and the
`?view`-stripping redirect to the file's own canonical path `"/" ++ p` (all
and only the responses `browse_path` produces after a successful head probe
with a generatable presigned URL). -/
def isFileService (path : List Char) : BrowseResult → Bool
  | .headOnly _ _ => true
  | .viewer k => k == path
  | .jsonBody k => k == path
  | .downloadRedirect k => k == path
  | .redirect t c => t == '/' :: path && c == 302
  | _ => false

/-- C2.  For a request path that does not end with the delimiter and is not a
reserved name, resolution (probes succeeding, presigned URL generatable)
proceeds in order: exact-key head probe first — if the object exists the
result is a file-service response; otherwise, if the prefix `path + "/"` is
non-empty the result is a 302 redirect to the canonical `"/" + path + "/"`
carrying no query parameters (the source redirects to a bare path literal);
otherwise 404. -/
theorem c2_resolution_order (cache : List (List Char × FolderStats))
    (store : List ObjectMeta) (path : List Char) (isHead hasView : Bool)
    (h1 : endsWithSlash path = false) (h2 : isReservedPath path = false) :
    if (s3_head_object store path false).isSome then
      isFileService path
        (WebServer.browse_path cache store path isHead hasView false false false true) = true
    else if prefix_has_contents store (path ++ ['/']) false then
      WebServer.browse_path cache store path isHead hasView false false false true
        = BrowseResult.redirect ('/' :: path ++ ['/']) 302
    else
      WebServer.browse_path cache store path isHead hasView false false false true
        = BrowseResult.notFound := by
  unfold WebServer.browse_path
  rw [h1, h2]
  cases hh : s3_head_object store path false with
  | some o =>
    simp only [hh, Option.isSome_some, if_true, Bool.false_eq_true, if_false]
    cases isHead <;> cases hasView <;> cases hj : isJsonName path <;>
      simp [isFileService, hj]
  | none =>
    simp only [hh, Option.isSome_none, Bool.false_eq_true, if_false]
    by_cases hp : prefix_has_contents store (path ++ ['/']) false = true
    · simp [hp]
    · rw [Bool.not_eq_true] at hp
      simp [hp]

/-- Store for the C2 witness: an exact object at `a/b`. -/
def c2store : List ObjectMeta := [⟨"a/b".toList, 4, 1⟩]

theorem c2_witness :
    isFileService "a/b".toList
      (WebServer.browse_path [] c2store "a/b".toList false false false false false true)
      = true := by
  have h := c2_resolution_order [] c2store "a/b".toList false false (by decide) (by decide)
  rw [if_pos (by decide)] at h
  exact h

/-- C5.  The `?view` marker has effect only when the resolved state is a file
whose name marks it as JSON: then the inline viewer is rendered; in every
other combination the marker is ignored (the response equals the one of the
marker-free request), and for an existing non-JSON file the marker is
stripped: the response is a 302 to the bare path `"/" ++ path` with no query
string. -/
theorem c5_view_marker (cache : List (List Char × FolderStats))
    (store : List ObjectMeta) (path : List Char) (isHead : Bool) :
    if isReservedPath path || endsWithSlash path
        || !(s3_head_object store path false).isSome then
      WebServer.browse_path cache store path isHead true false false false true
        = WebServer.browse_path cache store path isHead false false false false true
    else if isHead then
      WebServer.browse_path cache store path isHead true false false false true
        = WebServer.browse_path cache store path isHead false false false false true
    else if isJsonName path then
      WebServer.browse_path cache store path isHead true false false false true
        = BrowseResult.viewer path
    else
      WebServer.browse_path cache store path isHead true false false false true
        = BrowseResult.redirect ('/' :: path) 302 := by
  unfold WebServer.browse_path
  cases hr : isReservedPath path <;> cases hs : endsWithSlash path <;>
    cases hh : s3_head_object store path false <;>
      simp only [Bool.false_or, Bool.true_or, Bool.or_true, Bool.or_false,
        Option.isSome_some, Option.isSome_none, Bool.not_true, Bool.not_false,
        Bool.false_eq_true, if_false, if_true, ite_true, ite_false]
  all_goals cases isHead <;> cases hj : isJsonName path <;> simp [hj]

/-- C8 as amended.  Only a request path that consists entirely of a reserved
route name (up to trailing delimiters) is rejected as 404, and this happens
before any store probe: the outcome is 404 for every store and every probe
behavior. -/
theorem c8_amended_reserved (cache : List (List Char × FolderStats))
    (store : List ObjectMeta) (path : List Char)
    (isHead hasView headErr pfxErr listErr presignOk : Bool)
    (hres : isReservedPath path = true) :
    WebServer.browse_path cache store path isHead hasView headErr pfxErr listErr presignOk
      = BrowseResult.notFound := by
  unfold WebServer.browse_path
  rw [hres]
  rfl

theorem c8_witness :
    WebServer.browse_path [] [⟨"docs".toList, 1, 0⟩] "docs/".toList
      false false false false false true = BrowseResult.notFound :=
  c8_amended_reserved [] [⟨"docs".toList, 1, 0⟩] "docs/".toList
    false false false false false true (by decide)

/-- Store for the C8 counterexample: an object whose top-level segment is the
reserved name `view`. -/
def c8store : List ObjectMeta := [⟨"view/a.txt".toList, 1, 0⟩]

/-- C8 counterexample.  The reserved-name guard compares the whole path
(stripped of trailing delimiters), not its top-level segment: the path
`view/a.txt` has reserved top-level segment `view`, yet resolution head-probes
the store and serves the object when it exists (presigned-download redirect),
and returns 404 only because of a store miss otherwise — not before the
probes, and not regardless of store contents. -/
theorem c8_counterexample :
    WebServer.browse_path [] c8store "view/a.txt".toList false false false false false true
        = BrowseResult.downloadRedirect "view/a.txt".toList
      ∧ WebServer.browse_path [] [] "view/a.txt".toList false false false false false true
        = BrowseResult.notFound := by
  constructor <;> decide

/-- C10.  With the listing call succeeding: a reserved path is 404; a path
with a trailing delimiter is always answered with the rendered directory view
(HTTP 200), even when nothing exists under the prefix — it renders as an
empty folder; and a slash-free path is 404 exactly when both the head probe
misses and the prefix `path + "/"` is empty.  Hence 404 arises only for
slash-free paths and reserved names. -/
theorem c10_trailing_slash_never_404 (cache : List (List Char × FolderStats))
    (store : List ObjectMeta) (path : List Char) (isHead hasView presignOk : Bool) :
    if isReservedPath path then
      WebServer.browse_path cache store path isHead hasView false false false presignOk
        = BrowseResult.notFound
    else if endsWithSlash path then
      WebServer.browse_path cache store path isHead hasView false false false presignOk
        = BrowseResult.directory (WebServer.buildView cache store path)
    else
      (WebServer.browse_path cache store path isHead hasView false false false presignOk
          = BrowseResult.notFound
        ↔ (s3_head_object store path false = none
            ∧ prefix_has_contents store (path ++ ['/']) false = false)) := by
  unfold WebServer.browse_path WebServer.browse_directory
  cases hr : isReservedPath path <;> cases hs : endsWithSlash path <;>
    simp only [Bool.false_eq_true, if_false, if_true, ite_true, ite_false]
  all_goals cases hh : s3_head_object store path false <;>
    simp only [Option.isSome_some, Option.isSome_none]
  · by_cases hp : prefix_has_contents store (path ++ ['/']) false = true
    · simp [hp]
    · rw [Bool.not_eq_true] at hp
      simp [hp]
  · cases isHead <;> cases hasView <;> cases hj : isJsonName path <;>
      cases presignOk <;> simp [hj]

/-- C6 as amended.  A `ClientError` during the exact-key head probe is treated
as the key being absent and a `ClientError` during the prefix-contents probe
as the prefix being empty; a request that hits store errors in both probes on
a slash-free non-reserved path is therefore answered 404 — indistinguishable
from a missing path — and no server error is produced by these probes. -/
theorem c6_amended_probe_errors (cache : List (List Char × FolderStats))
    (store : List ObjectMeta) (path : List Char)
    (isHead hasView listErr presignOk : Bool)
    (h1 : endsWithSlash path = false) (h2 : isReservedPath path = false) :
    WebServer.browse_path cache store path isHead hasView true true listErr presignOk
      = BrowseResult.notFound := by
  unfold WebServer.browse_path
  rw [h1, h2]
  rfl

/-- Store for the C6 witness and counterexample: an object at exactly `a`. -/
def c6store : List ObjectMeta := [⟨"a".toList, 5, 3⟩]

theorem c6_witness :
    WebServer.browse_path [] c6store "a".toList false false true true false true
      = BrowseResult.notFound :=
  c6_amended_probe_errors [] c6store "a".toList false false false true
    (by decide) (by decide)

/-- C6 counterexample.  The object `a` exists, but with the head and prefix
probes failing (`ClientError`) the request for `a` is answered 404 — a store
failure surfaced as NOT_FOUND, not as a generic server error; the same request
with healthy probes serves the file. -/
theorem c6_counterexample :
    WebServer.browse_path [] c6store "a".toList false false true true false true
        = BrowseResult.notFound
      ∧ WebServer.browse_path [] c6store "a".toList false false false false false true
        = BrowseResult.downloadRedirect "a".toList
      ∧ BrowseResult.notFound ≠ BrowseResult.serverError := by
  refine ⟨?_, by decide, by decide⟩
  decide

/-- C7 as amended.  Every request with a non-empty legacy `?path=X` query
parameter is normalized, before resolution runs, by a permanent (301)
redirect to `"/" + X` with a trailing delimiter appended when `X` lacks one —
the directory-form canonical URL.  For a directory target this is its
canonical URL; a file target is redirected to its slash-appended directory
form, not to the file's canonical URL. -/
theorem c7_amended_legacy_redirect (cache : List (List Char × FolderStats))
    (store : List ObjectMeta) (pathParam : List Char) (listErr : Bool)
    (h : pathParam ≠ []) :
    WebServer.index cache store pathParam listErr
      = BrowseResult.redirect
          ('/' :: (if endsWithSlash pathParam then pathParam else pathParam ++ ['/'])) 301 := by
  unfold WebServer.index
  have he : pathParam.isEmpty = false := by
    cases pathParam with
    | nil => exact absurd rfl h
    | cons a l => rfl
  rw [he]
  rfl

theorem c7_witness :
    WebServer.index [] [] "a".toList false
      = BrowseResult.redirect "/a/".toList 301 := by
  have h := c7_amended_legacy_redirect [] [] "a".toList false (by decide)
  rw [h]
  decide

/-- Store for the C7 counterexample: a JSON file at `a/b.json`. -/
def c7store : List ObjectMeta := [⟨"a/b.json".toList, 2, 0⟩]

/-- C7 counterexample.  `X = a/b.json` denotes a file (the head probe
succeeds), whose path-based canonical URL is `/a/b.json`, where resolution
serves the file body.  Yet `GET /?path=a/b.json` 301-redirects to
`/a/b.json/` — the slash-appended form, which is not the file's canonical URL
and where resolution renders a directory view instead of the file. -/
theorem c7_counterexample :
    WebServer.index [] c7store "a/b.json".toList false
        = BrowseResult.redirect "/a/b.json/".toList 301
      ∧ (s3_head_object c7store "a/b.json".toList false).isSome = true
      ∧ "/a/b.json/".toList ≠ '/' :: "a/b.json".toList
      ∧ WebServer.browse_path [] c7store "a/b.json".toList false false false false false true
        = BrowseResult.jsonBody "a/b.json".toList
      ∧ WebServer.browse_path [] c7store "a/b.json/".toList false false false false false true
        = BrowseResult.directory (WebServer.buildView [] c7store "a/b.json/".toList) := by
  refine ⟨by decide, by decide, by decide, by decide, ?_⟩
  decide

theorem sum_map_add {α : Type} (g h : α → Nat) : ∀ cs : List α,
    (cs.map (fun c => g c + h c)).sum = (cs.map g).sum + (cs.map h).sum := by
  intro cs
  induction cs with
  | nil => rfl
  | cons c cs ih =>
    simp only [List.map_cons, List.sum_cons, ih]
    omega

theorem sum_map_one {α : Type} : ∀ l : List α, (l.map (fun _ => 1)).sum = l.length := by
  intro l
  induction l with
  | nil => rfl
  | cons x l ih => simp [ih]; omega

theorem sum_filter_cons {α : Type} (q : α → Bool) (f : α → Nat) (o : α) (l : List α) :
    (((o :: l).filter q).map f).sum
      = (if q o = true then f o else 0) + ((l.filter q).map f).sum := by
  cases hq : q o <;> simp [List.filter_cons, hq]

theorem sum_ite_unique {α : Type} (q : α → Bool) (a : Nat) :
    ∀ cs : List α, cs.Nodup →
      (∀ c1 ∈ cs, ∀ c2 ∈ cs, q c1 = true → q c2 = true → c1 = c2) →
      (cs.map (fun c => if q c = true then a else 0)).sum
        = if cs.any q = true then a else 0 := by
  intro cs
  induction cs with
  | nil => intro _ _; rfl
  | cons c cs ih =>
    intro hnd hu
    have hcm := (List.nodup_cons.1 hnd).1
    have hnd2 := (List.nodup_cons.1 hnd).2
    cases hq : q c with
    | true =>
      have hz : ∀ x ∈ cs.map (fun c2 => if q c2 = true then a else 0), x = 0 := by
        intro x hx
        obtain ⟨c2, hc2, rfl⟩ := List.mem_map.1 hx
        cases hq2 : q c2 with
        | true =>
          have heq : c2 = c :=
            hu c2 (List.mem_cons_of_mem c hc2) c (List.mem_cons_self c cs) hq2 hq
          exact absurd (heq ▸ hc2) hcm
        | false => simp
      simp only [List.map_cons, List.sum_cons, hq, if_true, List.any_cons, Bool.true_or,
        List.sum_eq_zero hz]
      omega
    | false =>
      have ihr := ih hnd2
        (fun c1 h1 c2 h2 => hu c1 (List.mem_cons_of_mem c h1) c2 (List.mem_cons_of_mem c h2))
      simp only [List.map_cons, List.sum_cons, hq, List.any_cons, Bool.false_or,
        Bool.false_eq_true, if_false, ihr, Nat.zero_add]

theorem split_at_slash : ∀ l : List Char, l.any (fun ch => ch == '/') = true →
    ∃ t, l = l.takeWhile (fun ch => !(ch == '/')) ++ '/' :: t := by
  intro l
  induction l with
  | nil => intro h; simp at h
  | cons x xs ih =>
    intro h
    cases hx : (x == '/') with
    | true =>
      refine ⟨xs, ?_⟩
      have hx2 : x = '/' := by simpa using hx
      subst hx2
      simp [List.takeWhile_cons]
    | false =>
      have hxs : xs.any (fun ch => ch == '/') = true := by
        simp only [List.any_cons, hx, Bool.false_or] at h
        exact h
      obtain ⟨t, ht⟩ := ih hxs
      refine ⟨t, ?_⟩
      rw [List.takeWhile_cons]
      simp only [hx, Bool.not_false, if_true, List.cons_append]
      rw [← ht]

theorem takeWhile_slashfree_append : ∀ s t : List Char,
    s.any (fun ch => ch == '/') = false →
    (s ++ '/' :: t).takeWhile (fun ch => !(ch == '/')) = s := by
  intro s
  induction s with
  | nil =>
    intro t _
    simp [List.takeWhile_cons]
  | cons x xs ih =>
    intro t hs
    simp only [List.any_cons, Bool.or_eq_false_iff] at hs
    simp only [List.cons_append, List.takeWhile_cons, hs.1, Bool.not_false, if_true]
    rw [ih t hs.2]

theorem takeWhile_no_slash (l : List Char) :
    (l.takeWhile (fun ch => !(ch == '/'))).any (fun ch => ch == '/') = false := by
  cases hany : (l.takeWhile (fun ch => !(ch == '/'))).any (fun ch => ch == '/') with
  | false => rfl
  | true =>
    obtain ⟨x, hx, hx2⟩ := List.any_eq_true.1 hany
    have hmem := List.mem_takeWhile_imp hx
    rw [hx2] at hmem
    simp at hmem

theorem childPfxOf_eq_some {p key c : List Char} :
    childPfxOf p key = some c ↔
      startsWith p key = true
        ∧ (key.drop p.length).any (fun ch => ch == '/') = true
        ∧ c = p ++ (key.drop p.length).takeWhile (fun ch => !(ch == '/')) ++ ['/'] := by
  unfold childPfxOf
  by_cases h1 : startsWith p key = true
  · by_cases h2 : (key.drop p.length).any (fun ch => ch == '/') = true
    · simp [h1, h2, eq_comm]
    · simp [h1, h2]
  · simp [h1]

theorem startsWith_child {p r w t : List Char} (hr : r = w ++ '/' :: t) :
    startsWith (p ++ w ++ ['/']) (p ++ r) = true := by
  subst hr
  refine (startsWith_iff _ _).2 ⟨t, ?_⟩
  simp [List.append_assoc]

theorem childPfxOf_startsWith {p key c : List Char} (h : childPfxOf p key = some c) :
    startsWith c key = true ∧ startsWith p c = true := by
  obtain ⟨h1, h2, hc⟩ := childPfxOf_eq_some.1 h
  obtain ⟨r, hr⟩ := (startsWith_iff p key).1 h1
  have hd : key.drop p.length = r := by rw [hr, List.drop_left]
  rw [hd] at hc h2
  obtain ⟨t, ht⟩ := split_at_slash r h2
  constructor
  · rw [hc, hr]
    exact startsWith_child ht
  · rw [hc]
    exact (startsWith_iff _ _).2
      ⟨r.takeWhile (fun ch => !(ch == '/')) ++ ['/'],
        List.append_assoc p (r.takeWhile (fun ch => !(ch == '/'))) ['/']⟩

theorem mem_commonPrefixes {store : List ObjectMeta} {p c : List Char} :
    c ∈ commonPrefixes store p ↔ ∃ o, o ∈ store ∧ childPfxOf p o.key = some c := by
  unfold commonPrefixes
  rw [List.mem_dedup, List.mem_filterMap]

theorem mem_commonPrefixes_form {store : List ObjectMeta} {p c : List Char}
    (h : c ∈ commonPrefixes store p) :
    ∃ s, c = p ++ s ++ ['/'] ∧ s.any (fun ch => ch == '/') = false := by
  obtain ⟨o, _, hc⟩ := mem_commonPrefixes.1 h
  obtain ⟨_, _, rfl⟩ := childPfxOf_eq_some.1 hc
  exact ⟨_, rfl, takeWhile_no_slash _⟩

theorem commonPfx_unique {p c1 c2 key : List Char}
    (h1 : ∃ s, c1 = p ++ s ++ ['/'] ∧ s.any (fun ch => ch == '/') = false)
    (h2 : ∃ s, c2 = p ++ s ++ ['/'] ∧ s.any (fun ch => ch == '/') = false)
    (k1 : startsWith c1 key = true) (k2 : startsWith c2 key = true) : c1 = c2 := by
  obtain ⟨s1, rfl, hs1⟩ := h1
  obtain ⟨s2, rfl, hs2⟩ := h2
  obtain ⟨u1, hu1⟩ := (startsWith_iff _ _).1 k1
  obtain ⟨u2, hu2⟩ := (startsWith_iff _ _).1 k2
  have eq1 : key = p ++ (s1 ++ '/' :: u1) := by rw [hu1]; simp [List.append_assoc]
  have eq2 : key = p ++ (s2 ++ '/' :: u2) := by rw [hu2]; simp [List.append_assoc]
  have e : s1 ++ '/' :: u1 = s2 ++ '/' :: u2 := (List.append_inj (eq1.symm.trans eq2) rfl).2
  have e1 : s1 = (s1 ++ '/' :: u1).takeWhile (fun ch => !(ch == '/')) :=
    (takeWhile_slashfree_append s1 u1 hs1).symm
  rw [e, takeWhile_slashfree_append s2 u2 hs2] at e1
  rw [e1]

theorem pointwise_account (p : List Char) (f : ObjectMeta → Nat) (o : ObjectMeta)
    (cs : List (List Char)) (hnd : cs.Nodup)
    (hform : ∀ c ∈ cs, ∃ s, c = p ++ s ++ ['/'] ∧ s.any (fun ch => ch == '/') = false)
    (hcov : startsWith p o.key = true →
      (o.key.drop p.length).any (fun ch => ch == '/') = true →
      (p ++ (o.key.drop p.length).takeWhile (fun ch => !(ch == '/')) ++ ['/']) ∈ cs) :
    (cs.map (fun c => if startsWith c o.key = true then f o else 0)).sum
      + (if (startsWith p o.key && !((o.key.drop p.length).any (fun ch => ch == '/'))
            && !(o.key == p)) = true then f o else 0)
      = if (startsWith p o.key && !(o.key == p)) = true then f o else 0 := by
  rw [sum_ite_unique (fun c => startsWith c o.key) (f o) cs hnd
    (fun c1 h1 c2 h2 q1 q2 => commonPfx_unique (hform c1 h1) (hform c2 h2) q1 q2)]
  by_cases hS : startsWith p o.key = true
  · by_cases hE : o.key = p
    · have hnone : cs.any (fun c => startsWith c o.key) = false := by
        cases hany : cs.any (fun c => startsWith c o.key) with
        | false => rfl
        | true =>
          obtain ⟨c, hc, hqc⟩ := List.any_eq_true.1 hany
          obtain ⟨s, rfl, _⟩ := hform c hc
          have hlen := startsWith_length hqc
          rw [hE] at hlen
          simp [List.length_append] at hlen
      rw [hnone, hE]
      simp
    · by_cases hA : (o.key.drop p.length).any (fun ch => ch == '/') = true
      · have hch : childPfxOf p o.key
            = some (p ++ (o.key.drop p.length).takeWhile (fun ch => !(ch == '/')) ++ ['/']) :=
          childPfxOf_eq_some.2 ⟨hS, hA, rfl⟩
        have hany : cs.any (fun c => startsWith c o.key) = true :=
          List.any_eq_true.2 ⟨_, hcov hS hA, (childPfxOf_startsWith hch).1⟩
        simp [hany, hS, hA, hE]
      · have hnone : cs.any (fun c => startsWith c o.key) = false := by
          cases hany : cs.any (fun c => startsWith c o.key) with
          | false => rfl
          | true =>
            obtain ⟨c, hc, hqc⟩ := List.any_eq_true.1 hany
            obtain ⟨s, rfl, hs⟩ := hform c hc
            obtain ⟨u, hu⟩ := (startsWith_iff _ _).1 hqc
            obtain ⟨r, hr⟩ := (startsWith_iff _ _).1 hS
            have hd : o.key.drop p.length = r := by rw [hr, List.drop_left]
            have eq1 : o.key = p ++ (s ++ '/' :: u) := by rw [hu]; simp [List.append_assoc]
            have hre : r = s ++ '/' :: u := (List.append_inj (hr.symm.trans eq1) rfl).2
            rw [hd, hre] at hA
            simp at hA
        simp [hnone, hS, hA, hE]
  · have hnone : cs.any (fun c => startsWith c o.key) = false := by
      cases hany : cs.any (fun c => startsWith c o.key) with
      | false => rfl
      | true =>
        obtain ⟨c, hc, hqc⟩ := List.any_eq_true.1 hany
        obtain ⟨s, rfl, _⟩ := hform c hc
        have hps : startsWith p o.key = true :=
          startsWith_trans
            ((startsWith_iff _ _).2 ⟨s ++ ['/'], List.append_assoc p s ['/']⟩) hqc
        exact absurd hps hS
    simp [hnone, hS]

theorem level_partition (p : List Char) (f : ObjectMeta → Nat)
    (cs : List (List Char)) (hnd : cs.Nodup)
    (hform : ∀ c ∈ cs, ∃ s, c = p ++ s ++ ['/'] ∧ s.any (fun ch => ch == '/') = false) :
    ∀ store : List ObjectMeta,
      (∀ o ∈ store, startsWith p o.key = true →
        (o.key.drop p.length).any (fun ch => ch == '/') = true →
        (p ++ (o.key.drop p.length).takeWhile (fun ch => !(ch == '/')) ++ ['/']) ∈ cs) →
      (cs.map (fun c => ((store.filter (fun o => startsWith c o.key)).map f).sum)).sum
        + ((store.filter (fun o => startsWith p o.key
            && !((o.key.drop p.length).any (fun ch => ch == '/')) && !(o.key == p))).map f).sum
      = ((store.filter (fun o => startsWith p o.key && !(o.key == p))).map f).sum := by
  intro store
  induction store with
  | nil =>
    intro _
    simp
  | cons o rest ih =>
    intro hcov
    have hcr := ih (fun o2 h2 => hcov o2 (List.mem_cons_of_mem o h2))
    have hpo := pointwise_account p f o cs hnd hform (hcov o (List.mem_cons_self o rest))
    rw [sum_filter_cons, sum_filter_cons]
    have hdec : (cs.map (fun c =>
          (((o :: rest).filter (fun o2 => startsWith c o2.key)).map f).sum)).sum
        = (cs.map (fun c => if startsWith c o.key = true then f o else 0)).sum
          + (cs.map (fun c => ((rest.filter (fun o2 => startsWith c o2.key)).map f).sum)).sum := by
      have hfun : (fun c => (((o :: rest).filter (fun o2 => startsWith c o2.key)).map f).sum)
          = fun c => (if startsWith c o.key = true then f o else 0)
              + ((rest.filter (fun o2 => startsWith c o2.key)).map f).sum := by
        funext c
        rw [sum_filter_cons]
      rw [hfun, sum_map_add]
    rw [hdec]
    omega

/-- C4 as amended.  View totals are computed in one level only: `total_size`
is the sum of the child-directory stats sizes plus the sum of the immediate
child-file sizes, and `total_files` likewise; and when the cache is fresh
(every cached stat equals a from-scratch aggregation) and the store holds no
marker object whose key equals the prefix itself, the view totals equal the
from-scratch aggregate of the prefix exactly — no double counting.  (A marker
object at exactly the prefix is skipped by `list_directory` but counted by
the aggregation, which is the single discrepancy the counterexample forces.) -/
theorem c4_view_totals (cache : List (List Char × FolderStats)) (store : List ObjectMeta)
    (pfx : List Char)
    (hfresh : ∀ q s, List.lookup q cache = some s → s = aggregateStats store q)
    (hpfx : endsWithSlash pfx = true ∨ pfx = [])
    (hmarker : ∀ o ∈ store, o.key ≠ pfx) :
    (WebServer.buildView cache store pfx).total_size
        = ((WebServer.buildView cache store pfx).folders.map (fun e => e.size)).sum
          + ((WebServer.buildView cache store pfx).files.map (fun e => e.size)).sum
      ∧ (WebServer.buildView cache store pfx).total_files
        = ((WebServer.buildView cache store pfx).folders.map (fun e => e.file_count)).sum
          + (WebServer.buildView cache store pfx).files.length
      ∧ (WebServer.buildView cache store pfx).total_size = (aggregateStats store pfx).size
      ∧ (WebServer.buildView cache store pfx).total_files
        = (aggregateStats store pfx).file_count := by
  have hp2 : (if !pfx.isEmpty && !endsWithSlash pfx then pfx ++ ['/'] else pfx) = pfx := by
    rcases hpfx with h | h
    · simp [h]
    · subst h
      simp
  have hview : WebServer.buildView cache store pfx =
      { path := pfx,
        folders := (WebServer.list_directory cache store pfx).1,
        files := (WebServer.list_directory cache store pfx).2,
        total_size := ((WebServer.list_directory cache store pfx).1.map (fun e => e.size)).sum
          + ((WebServer.list_directory cache store pfx).2.map (fun e => e.size)).sum,
        total_files :=
          ((WebServer.list_directory cache store pfx).1.map (fun e => e.file_count)).sum
          + (WebServer.list_directory cache store pfx).2.length } := by
    unfold WebServer.buildView
    rw [hp2]
  have hld1 : (WebServer.list_directory cache store pfx).1
      = List.insertionSort (fun a b => nameLe a.name b.name = true)
          ((commonPrefixes store pfx).map (fun fp =>
            ({ name := rstripSlash (fp.drop pfx.length), path := fp,
               size := (WebServer.get_folder_stats cache store fp).size,
               file_count := (WebServer.get_folder_stats cache store fp).file_count,
               modified := (WebServer.get_folder_stats cache store fp).modified } : FolderEntry))) :=
    rfl
  have hld2 : (WebServer.list_directory cache store pfx).2
      = List.insertionSort (fun a b => nameLe a.name b.name = true)
          (((levelObjects store pfx).filter (fun o => !(o.key == pfx))).map
            (fun o => ({ name := o.key.drop pfx.length, path := o.key,
                         size := o.size, modified := o.modified } : FileEntry))) := rfl
  have hfreshEq : ∀ c, WebServer.get_folder_stats cache store c = aggregateStats store c := by
    intro c
    unfold WebServer.get_folder_stats
    cases hl : List.lookup c cache with
    | none => rfl
    | some s => exact hfresh c s hl
  have hFsum : ∀ g : FolderEntry → Nat,
      (((WebServer.list_directory cache store pfx).1).map g).sum
        = ((commonPrefixes store pfx).map (fun fp =>
            g { name := rstripSlash (fp.drop pfx.length), path := fp,
                size := (WebServer.get_folder_stats cache store fp).size,
                file_count := (WebServer.get_folder_stats cache store fp).file_count,
                modified := (WebServer.get_folder_stats cache store fp).modified })).sum := by
    intro g
    rw [hld1, ((List.perm_insertionSort _ _).map g).sum_eq, List.map_map]
    rfl
  have hFisum : ∀ g : FileEntry → Nat,
      (((WebServer.list_directory cache store pfx).2).map g).sum
        = (((levelObjects store pfx).filter (fun o => !(o.key == pfx))).map
            (fun o => g { name := o.key.drop pfx.length, path := o.key,
                          size := o.size, modified := o.modified })).sum := by
    intro g
    rw [hld2, ((List.perm_insertionSort _ _).map g).sum_eq, List.map_map]
    rfl
  have hFilen : ((WebServer.list_directory cache store pfx).2).length
      = ((levelObjects store pfx).filter (fun o => !(o.key == pfx))).length := by
    rw [hld2, (List.perm_insertionSort _ _).length_eq, List.length_map]
  have h2 : (levelObjects store pfx).filter (fun o => !(o.key == pfx))
      = store.filter (fun o => startsWith pfx o.key
          && !((o.key.drop pfx.length).any (fun ch => ch == '/')) && !(o.key == pfx)) := by
    unfold levelObjects
    rw [List.filter_filter]
    apply List.filter_congr
    intro o _
    cases hb1 : startsWith pfx o.key <;>
      cases hb2 : (o.key.drop pfx.length).any (fun ch => ch == '/') <;>
        cases hb3 : (o.key == pfx) <;> rfl
  have h3 : store.filter (fun o => startsWith pfx o.key && !(o.key == pfx))
      = store.filter (fun o => startsWith pfx o.key) := by
    apply List.filter_congr
    intro o ho
    have hb : (o.key == pfx) = false := by
      cases hb : (o.key == pfx) with
      | false => rfl
      | true => exact absurd (by simpa using hb) (hmarker o ho)
    rw [hb]
    cases hb1 : startsWith pfx o.key <;> rfl
  have hsize : ((WebServer.list_directory cache store pfx).1.map (fun e => e.size)).sum
      + ((WebServer.list_directory cache store pfx).2.map (fun e => e.size)).sum
      = (aggregateStats store pfx).size := by
    rw [hFsum (fun e => e.size), hFisum (fun e => e.size)]
    have h1 : (fun fp => (WebServer.get_folder_stats cache store fp).size)
        = fun fp => ((store.filter (fun o => startsWith fp o.key)).map (fun o => o.size)).sum := by
      funext fp
      rw [hfreshEq fp, aggregateStats_eq]
    have hmm : (((levelObjects store pfx).filter (fun o => !(o.key == pfx))).map
          (fun o => o.size)).sum
        = ((store.filter (fun o => startsWith pfx o.key
            && !((o.key.drop pfx.length).any (fun ch => ch == '/')) && !(o.key == pfx))).map
            (fun o => o.size)).sum := by
      rw [h2]
    rw [h1, hmm]
    have hpart := level_partition pfx (fun o => o.size) (commonPrefixes store pfx)
      (List.nodup_dedup _) (fun c hc => mem_commonPrefixes_form hc) store
      (fun o ho ha hb => mem_commonPrefixes.2 ⟨o, ho, childPfxOf_eq_some.2 ⟨ha, hb, rfl⟩⟩)
    rw [h3] at hpart
    rw [hpart, aggregateStats_eq]
  have hcount : ((WebServer.list_directory cache store pfx).1.map (fun e => e.file_count)).sum
      + (WebServer.list_directory cache store pfx).2.length
      = (aggregateStats store pfx).file_count := by
    rw [hFsum (fun e => e.file_count), hFilen]
    have h1 : (fun fp => (WebServer.get_folder_stats cache store fp).file_count)
        = fun fp => ((store.filter (fun o => startsWith fp o.key)).map
            (fun _ : ObjectMeta => 1)).sum := by
      funext fp
      rw [hfreshEq fp, aggregateStats_eq, sum_map_one]
    have hpart := level_partition pfx (fun _ => 1) (commonPrefixes store pfx)
      (List.nodup_dedup _) (fun c hc => mem_commonPrefixes_form hc) store
      (fun o ho ha hb => mem_commonPrefixes.2 ⟨o, ho, childPfxOf_eq_some.2 ⟨ha, hb, rfl⟩⟩)
    rw [sum_map_one, sum_map_one, h3] at hpart
    rw [h1, h2, hpart, aggregateStats_eq]
  rw [hview]
  exact ⟨rfl, rfl, hsize, hcount⟩

/-- Store for the C4 witness: a file directly under `a/` and one in a
subfolder. -/
def c4wstore : List ObjectMeta :=
  [⟨"a/x".toList, 3, 10⟩, ⟨"a/b/c".toList, 4, 7⟩, ⟨"z".toList, 9, 99⟩]

theorem c4_witness :
    (WebServer.buildView [] c4wstore "a/".toList).total_size
        = (aggregateStats c4wstore "a/".toList).size
      ∧ (WebServer.buildView [] c4wstore "a/".toList).total_files
        = (aggregateStats c4wstore "a/".toList).file_count
      ∧ (aggregateStats c4wstore "a/".toList).size = 7 := by
  have h := c4_view_totals [] c4wstore "a/".toList
    (fun q s hq => by simp [List.lookup] at hq)
    (Or.inl (by decide))
    (by decide)
  exact ⟨h.2.2.1, h.2.2.2, by decide⟩

/-- Store for the C4 counterexample: a non-empty marker object stored at the
key `a/` itself. -/
def c4xstore : List ObjectMeta := [⟨"a/".toList, 5, 0⟩]

/-- C4 counterexample.  With the empty (trivially fresh) cache and the store
holding a 5-byte object at exactly the key `a/`, the view of `a/` lists no
folder and no file (`list_directory` skips the object whose key equals the
prefix), so its totals are 0, while the from-scratch aggregation of `a/`
counts that object: `aggregate("a/").size = 5 ≠ 0`.  The claim's equality
`view(P).total_size = aggregate(P).size` under a fresh cache is refuted. -/
theorem c4_counterexample :
    (WebServer.buildView [] c4xstore "a/".toList).total_size = 0
      ∧ (WebServer.buildView [] c4xstore "a/".toList).total_files = 0
      ∧ (aggregateStats c4xstore "a/".toList).size = 5
      ∧ (aggregateStats c4xstore "a/".toList).file_count = 1 := by
  refine ⟨?_, ?_, by decide, by decide⟩ <;> decide

theorem lexLeB_cons_iff {x y : Char} {xs ys : List Char} :
    lexLeB (x :: xs) (y :: ys) = true ↔ x < y ∨ (x = y ∧ lexLeB xs ys = true) := by
  show (if x < y then true else if y < x then false else lexLeB xs ys) = true ↔ _
  rcases lt_trichotomy x y with h | h | h
  · rw [if_pos h]
    simp [h]
  · subst h
    rw [if_neg (lt_irrefl x), if_neg (lt_irrefl x)]
    simp
  · rw [if_neg (lt_asymm h), if_pos h]
    simp [lt_asymm h, ne_of_gt h]

theorem lexLeB_total : ∀ a b : List Char, lexLeB a b = true ∨ lexLeB b a = true := by
  intro a
  induction a with
  | nil => intro b; left; rfl
  | cons x xs ih =>
    intro b
    cases b with
    | nil => right; rfl
    | cons y ys =>
      rcases lt_trichotomy x y with h | h | h
      · left; exact lexLeB_cons_iff.2 (Or.inl h)
      · subst h
        rcases ih ys with h2 | h2
        · left; exact lexLeB_cons_iff.2 (Or.inr ⟨rfl, h2⟩)
        · right; exact lexLeB_cons_iff.2 (Or.inr ⟨rfl, h2⟩)
      · right; exact lexLeB_cons_iff.2 (Or.inl h)

theorem lexLeB_trans : ∀ a b c : List Char,
    lexLeB a b = true → lexLeB b c = true → lexLeB a c = true := by
  intro a
  induction a with
  | nil => intro b c _ _; rfl
  | cons x xs ih =>
    intro b c h1 h2
    cases b with
    | nil => simp [lexLeB] at h1
    | cons y ys =>
      cases c with
      | nil => simp [lexLeB] at h2
      | cons z zs =>
        rcases lexLeB_cons_iff.1 h1 with hxy | ⟨rfl, hxs⟩
        · rcases lexLeB_cons_iff.1 h2 with hyz | ⟨rfl, hys⟩
          · exact lexLeB_cons_iff.2 (Or.inl (lt_trans hxy hyz))
          · exact lexLeB_cons_iff.2 (Or.inl hxy)
        · rcases lexLeB_cons_iff.1 h2 with hyz | ⟨rfl, hys⟩
          · exact lexLeB_cons_iff.2 (Or.inl hyz)
          · exact lexLeB_cons_iff.2 (Or.inr ⟨rfl, ih ys zs hxs hys⟩)

instance : IsTotal (List Char) (fun a b => lexLeB a b = true) :=
  ⟨lexLeB_total⟩

instance : IsTrans (List Char) (fun a b => lexLeB a b = true) :=
  ⟨lexLeB_trans⟩

theorem getLast?_append_right {α : Type} (x t : List α) (h : t ≠ []) :
    (x ++ t).getLast? = t.getLast? := by
  induction x with
  | nil => rfl
  | cons a x ih =>
    rw [List.cons_append]
    cases hxt : x ++ t with
    | nil => exact absurd (List.append_eq_nil.1 hxt).2 h
    | cons c rest =>
      rw [hxt] at ih
      rw [List.getLast?_cons_cons, ih]

theorem mem_of_getLast? {α : Type} : ∀ {l : List α} {a : α}, l.getLast? = some a → a ∈ l := by
  intro l
  induction l with
  | nil => intro a h; simp at h
  | cons x xs ih =>
    intro a h
    cases xs with
    | nil =>
      rw [List.getLast?_singleton] at h
      rw [Option.some.injEq] at h
      rw [← h]
      exact List.mem_singleton_self x
    | cons y ys =>
      rw [List.getLast?_cons_cons] at h
      exact List.mem_cons_of_mem x (ih h)

theorem split_at_slash' (l : List Char) (hl : l.any (fun ch => ch == '/') = true) :
    ∃ w t2, l = w ++ '/' :: t2 ∧ w.any (fun ch => ch == '/') = false
      ∧ l.takeWhile (fun ch => !(ch == '/')) = w := by
  obtain ⟨t2, ht⟩ := split_at_slash l hl
  exact ⟨l.takeWhile (fun ch => !(ch == '/')), t2, ht, takeWhile_no_slash l, rfl⟩

theorem depth_child {p s : List Char} (hs : s.any (fun ch => ch == '/') = false) :
    (p ++ s ++ ['/']).count '/' = p.count '/' + 1 := by
  have hs0 : s.count '/' = 0 := by
    rw [List.count_eq_zero]
    intro hmem
    have hany : s.any (fun ch => ch == '/') = true := List.any_eq_true.2 ⟨'/', hmem, rfl⟩
    rw [hs] at hany
    exact absurd hany (by simp)
  simp [List.count_append, hs0]

/-- One breadth-first level of `discover_all_folders`: each frontier prefix
whose depth (`count "/"`) is below `max_depth` is expanded into its immediate
child prefixes (`Delimiter="/"` listing); the children are collected and form
the next frontier.  The source drives this with a FIFO work queue
(`pop(0)` / `append`); since every child prefix has depth exactly one more
than its parent and the queue starts at the root, the queue is processed in
breadth-first levels, and because the final result is `sorted(set(...))` the
traversal order does not affect it — the level formulation collects the same
set of prefixes. -/
def discoverLevels (store : List ObjectMeta) (maxDepth : Nat) :
    Nat → List (List Char) → List (List Char)
  | 0, _ => []
  | b + 1, frontier =>
    let children := (frontier.filter (fun p => decide (p.count '/' < maxDepth))).flatMap
      (fun p => commonPrefixes store p)
    children ++ discoverLevels store maxDepth b children

/-- `compute_metrics.discover_all_folders`: breadth-first discovery of every
folder prefix from the root (the empty prefix), bounded by `max_depth`,
returning `sorted(set(all_folders))` — the distinct discovered prefixes in
lexicographic order.  `maxDepth + 1` levels suffice: the frontier at level `k`
holds only prefixes of depth `k`, and prefixes of depth `max_depth` are not
expanded. -/
def discover_all_folders (store : List ObjectMeta) (maxDepth : Nat) : List (List Char) :=
  List.insertionSort (fun a b => lexLeB a b = true)
    ((discoverLevels store maxDepth (maxDepth + 1) [[]]).dedup)

theorem discoverLevels_depth (store : List ObjectMeta) (maxDepth : Nat) :
    ∀ b frontier, ∀ q ∈ discoverLevels store maxDepth b frontier,
      q.count '/' ≤ maxDepth := by
  intro b
  induction b with
  | zero =>
    intro frontier q hq
    simp [discoverLevels] at hq
  | succ b ih =>
    intro frontier q hq
    simp only [discoverLevels] at hq
    rw [List.mem_append] at hq
    rcases hq with hq | hq
    · obtain ⟨p, hp, hq⟩ := List.mem_flatMap.1 hq
      have hplt : p.count '/' < maxDepth := by
        have hf := (List.mem_filter.1 hp).2
        simpa using hf
      obtain ⟨s, rfl, hs⟩ := mem_commonPrefixes_form hq
      rw [depth_child hs]
      omega
    · exact ih _ q hq

theorem discoverLevels_complete (store : List ObjectMeta) (maxDepth : Nat) :
    ∀ m b frontier p q,
      1 ≤ m → m ≤ b →
      p ∈ frontier →
      startsWith p q = true →
      q.count '/' = p.count '/' + m →
      q.count '/' ≤ maxDepth →
      endsWithSlash q = true →
      (∃ o ∈ store, startsWith q o.key = true) →
      q ∈ discoverLevels store maxDepth b frontier := by
  intro m
  induction m with
  | zero =>
    intro b frontier p q h1 _ _ _ _ _ _ _
    exact absurd h1 (by omega)
  | succ m ih =>
    intro b frontier p q hm hb hp hpq hdep hmax hslash hex
    cases b with
    | zero => exact absurd hb (by omega)
    | succ b2 =>
      obtain ⟨o, ho, hqo⟩ := hex
      have hplt : p.count '/' < maxDepth := by omega
      obtain ⟨t, rfl⟩ := (startsWith_iff p q).1 hpq
      have htne : t ≠ [] := by
        intro h0
        subst h0
        rw [List.append_nil] at hdep
        omega
      have htmem : '/' ∈ t := by
        unfold endsWithSlash at hslash
        rw [getLast?_append_right p t htne] at hslash
        exact mem_of_getLast? (by simpa using hslash)
      have htany : t.any (fun ch => ch == '/') = true :=
        List.any_eq_true.2 ⟨'/', htmem, rfl⟩
      obtain ⟨w, t2, ht2, hwfree, htakeW⟩ := split_at_slash' t htany
      subst ht2
      have hpo : startsWith p o.key = true := startsWith_trans hpq hqo
      obtain ⟨rk, hrk⟩ := (startsWith_iff p o.key).1 hpo
      have hdk : o.key.drop p.length = rk := by rw [hrk, List.drop_left]
      obtain ⟨u, hu⟩ := (startsWith_iff (p ++ (w ++ '/' :: t2)) o.key).1 hqo
      have hrk2 : rk = w ++ '/' :: (t2 ++ u) := by
        have e1 : p ++ rk = p ++ (w ++ '/' :: (t2 ++ u)) := by
          rw [← hrk, hu]
          simp [List.append_assoc]
        exact (List.append_inj e1 rfl).2
      have hwt : rk.takeWhile (fun ch => !(ch == '/')) = w := by
        rw [hrk2]
        exact takeWhile_slashfree_append w (t2 ++ u) hwfree
      have hch : childPfxOf p o.key = some (p ++ w ++ ['/']) := by
        rw [childPfxOf_eq_some]
        refine ⟨hpo, ?_, ?_⟩
        · rw [hdk, hrk2]
          exact List.any_eq_true.2 ⟨'/', by simp, rfl⟩
        · rw [hdk, hwt]
      have hcmem : (p ++ w ++ ['/']) ∈ commonPrefixes store p :=
        mem_commonPrefixes.2 ⟨o, ho, hch⟩
      have hchm : (p ++ w ++ ['/'])
          ∈ (frontier.filter (fun x => decide (x.count '/' < maxDepth))).flatMap
              (fun x => commonPrefixes store x) :=
        List.mem_flatMap.2 ⟨p, List.mem_filter.2 ⟨hp, by simpa using hplt⟩, hcmem⟩
      have hcd : (p ++ w ++ ['/']).count '/' = p.count '/' + 1 := depth_child hwfree
      have hqc : p ++ (w ++ '/' :: t2) = (p ++ w ++ ['/']) ++ t2 := by
        simp [List.append_assoc]
      have hunfold : discoverLevels store maxDepth (b2 + 1) frontier
          = (frontier.filter (fun x => decide (x.count '/' < maxDepth))).flatMap
              (fun x => commonPrefixes store x)
            ++ discoverLevels store maxDepth b2
                ((frontier.filter (fun x => decide (x.count '/' < maxDepth))).flatMap
                  (fun x => commonPrefixes store x)) := rfl
      rw [hunfold, List.mem_append]
      by_cases hm0 : m = 0
      · subst hm0
        left
        have ht2nil : t2 = [] := by
          by_contra hne2
          have hcnt : t2.count '/' = 0 := by
            have hq2 := hdep
            rw [hqc, List.count_append, hcd] at hq2
            omega
          have hmem2 : '/' ∈ t2 := by
            have hs2 := hslash
            unfold endsWithSlash at hs2
            rw [hqc, getLast?_append_right _ t2 hne2] at hs2
            exact mem_of_getLast? (by simpa using hs2)
          exact (List.count_eq_zero.1 hcnt) hmem2
        rw [hqc, ht2nil, List.append_nil]
        exact hchm
      · right
        refine ih b2 _ (p ++ w ++ ['/']) (p ++ (w ++ '/' :: t2))
          (by omega) (by omega) hchm ?_ ?_ hmax hslash ⟨o, ho, hqo⟩
        · rw [hqc]
          exact startsWith_append _ _
        · rw [hqc, List.count_append, hcd]
          have hq2 := hdep
          rw [hqc, List.count_append, hcd] at hq2
          omega

/-- C3 as amended.  For every `max_depth` and store, `discover_all_folders`
never returns a prefix of depth (delimiter count) greater than `max_depth`
(prefixes of depth at least `max_depth` are not expanded, so nothing deeper
is ever collected), the returned collection is sorted, and every NON-ROOT
prefix reachable within that depth that has at least one child prefix is
returned (every non-empty delimiter-terminated leading segment of a stored
key with depth at most `max_depth` is returned; the root/empty prefix, from
which the crawl starts, is never part of the result — the counterexample
forces this root exclusion). -/
theorem c3_amended_discover (store : List ObjectMeta) (maxDepth : Nat) :
    List.Sorted (fun a b => lexLeB a b = true) (discover_all_folders store maxDepth)
      ∧ (∀ q ∈ discover_all_folders store maxDepth, q.count '/' ≤ maxDepth)
      ∧ (∀ q, q ≠ [] → endsWithSlash q = true →
          (∃ o ∈ store, startsWith q o.key = true) →
          commonPrefixes store q ≠ [] →
          q.count '/' ≤ maxDepth →
          q ∈ discover_all_folders store maxDepth) := by
  have hmem : ∀ q, q ∈ discover_all_folders store maxDepth
      ↔ q ∈ discoverLevels store maxDepth (maxDepth + 1) [[]] := by
    intro q
    unfold discover_all_folders
    rw [(List.perm_insertionSort _ _).mem_iff, List.mem_dedup]
  refine ⟨List.sorted_insertionSort _ _, ?_, ?_⟩
  · intro q hq
    exact discoverLevels_depth store maxDepth _ _ q ((hmem q).1 hq)
  · intro q hne hsl hex _ hdep
    have hq1 : 1 ≤ q.count '/' := by
      have hm : '/' ∈ q := mem_of_getLast? (by simpa [endsWithSlash] using hsl)
      cases hc : q.count '/' with
      | zero => exact absurd hm (List.count_eq_zero.1 hc)
      | succ n => omega
    refine (hmem q).2 (discoverLevels_complete store maxDepth (q.count '/') (maxDepth + 1)
      [[]] [] q hq1 (by omega) (List.mem_singleton_self _) ?_ (by simp) hdep hsl hex)
    cases q with
    | nil => exact absurd rfl hne
    | cons a l => rfl

/-- Store for the C3 witness: one key three segments deep. -/
def c3store : List ObjectMeta := [⟨"a/b/c.txt".toList, 2, 5⟩]

theorem c3_witness :
    "a/".toList ∈ discover_all_folders c3store 2
      ∧ List.Sorted (fun a b => lexLeB a b = true) (discover_all_folders c3store 2) := by
  have h := c3_amended_discover c3store 2
  refine ⟨?_, h.1⟩
  exact h.2.2 "a/".toList (by decide) (by decide)
    ⟨⟨"a/b/c.txt".toList, 2, 5⟩, by decide, by decide⟩ (by decide) (by decide)

/-- Store for the C3 counterexample. -/
def c3xstore : List ObjectMeta := [⟨"a/b".toList, 1, 0⟩]

/-- C3 counterexample.  The root (empty) prefix is reachable (the crawl starts
there), has depth 0 ≤ max_depth = 1, and has the child prefix `a/`, yet
`discover_all_folders` never returns it: the result is exactly `["a/"]`.  So
the claim's completeness part — "returns every prefix reachable within that
depth that has at least one child prefix" — fails at the root prefix. -/
theorem c3_counterexample :
    commonPrefixes c3xstore [] = ["a/".toList]
      ∧ ([] : List Char).count '/' ≤ 1
      ∧ ([] : List Char) ∉ discover_all_folders c3xstore 1
      ∧ discover_all_folders c3xstore 1 = ["a/".toList] := by
  refine ⟨by decide, by decide, ?_, ?_⟩ <;> decide

/-- The two filesystem paths the rebuild touches: the canonical
`metrics.json` content and the temporary `metrics.tmp` content (each `none`
when the file does not exist). -/
structure FsState where
  canonical : Option (List Char)
  temp : Option (List Char)
deriving DecidableEq

/-- Decimal digits of a number, for the concrete snapshot serialization. -/
def natChars (n : Nat) : List Char := Nat.toDigits 10 n

/-- Concrete serialization of one stats record (the claim depends only on the
snapshot being written as one file, not on the JSON syntax, so a simple
unambiguous encoding stands in for `json.dump`). -/
def serializeStats (s : FolderStats) : List Char :=
  natChars s.size ++ [','] ++ natChars s.file_count ++ [','] ++
    (match s.modified with
     | none => ['-']
     | some m => natChars m)

/-- Concrete serialization of the output record of `compute_all_metrics`
(computed-at stamp plus the folder → stats mapping). -/
def serializeMetrics (computedAt : Nat) (metrics : List (List Char × FolderStats)) :
    List Char :=
  natChars computedAt ++ [';'] ++
    metrics.flatMap (fun kv => kv.1 ++ [':'] ++ serializeStats kv.2 ++ [';'])

/-- The observable filesystem states of the persistence step of
`compute_all_metrics`: `json.dump` writes the serialized snapshot to the
temporary file (modelled one character at a time — every partial write
touches only the temp file, never the canonical path), then
`temp_file.replace(METRICS_FILE)` renames the temp file over the canonical
path in one atomic step (POSIX rename).  A rebuild that fails before the
rename stops in some state of the initial segment before the final one. -/
def persistTrace (fs0 : FsState) (content : List Char) : List FsState :=
  (List.range (content.length + 1)).map
    (fun i => { canonical := fs0.canonical, temp := some (content.take i) })
  ++ [{ canonical := some content, temp := none }]

/-- The metrics mapping `compute_all_metrics` assembles: discover all folders
(`max_depth` defaults to 4) and aggregate each (`get_folder_stats` returns a
stats dict for every folder here — the error path yielding `None` is skipped
only on a `ClientError`, which this success-path model excludes). -/
def compute_all_metrics (store : List ObjectMeta) : List (List Char × FolderStats) :=
  (discover_all_folders store 4).map (fun f => (f, aggregateStats store f))

/-- The filesystem trace of one rebuild run, from initial state `fs0`. -/
def compute_all_metrics_trace (store : List ObjectMeta) (computedAt : Nat)
    (fs0 : FsState) : List FsState :=
  persistTrace fs0 (serializeMetrics computedAt (compute_all_metrics store))

theorem persistTrace_canonical (fs0 : FsState) (content : List Char) :
    (∀ s ∈ persistTrace fs0 content,
        s.canonical = fs0.canonical ∨ s.canonical = some content)
      ∧ (∀ s ∈ (persistTrace fs0 content).dropLast, s.canonical = fs0.canonical)
      ∧ (persistTrace fs0 content).getLast?
          = some { canonical := some content, temp := none } := by
  refine ⟨?_, ?_, ?_⟩
  · intro s hs
    unfold persistTrace at hs
    rw [List.mem_append] at hs
    rcases hs with hs | hs
    · obtain ⟨i, _, rfl⟩ := List.mem_map.1 hs
      exact Or.inl rfl
    · rw [List.mem_singleton] at hs
      subst hs
      exact Or.inr rfl
  · intro s hs
    unfold persistTrace at hs
    rw [List.dropLast_concat] at hs
    obtain ⟨i, _, rfl⟩ := List.mem_map.1 hs
    rfl
  · unfold persistTrace
    rw [getLast?_append_right _ _ (by simp)]
    rfl

/-- C9.  Every rebuild persists the snapshot by serializing it to the
temporary file and then atomically renaming it over the canonical path: along
the whole trace the canonical path holds either the previous snapshot or the
complete new serialization (never a partial write — those live only in the
temp file); every state before the final rename still shows the previous
snapshot, so a rebuild failing before the rename leaves the previous snapshot
in effect; and the final state holds the complete new snapshot. -/
theorem c9_atomic_persist (fs0 : FsState) (store : List ObjectMeta) (computedAt : Nat) :
    (∀ s ∈ compute_all_metrics_trace store computedAt fs0,
        s.canonical = fs0.canonical
          ∨ s.canonical = some (serializeMetrics computedAt (compute_all_metrics store)))
      ∧ (∀ s ∈ (compute_all_metrics_trace store computedAt fs0).dropLast,
          s.canonical = fs0.canonical)
      ∧ (compute_all_metrics_trace store computedAt fs0).getLast?
          = some { canonical := some (serializeMetrics computedAt (compute_all_metrics store)),
                   temp := none } :=
  persistTrace_canonical fs0 (serializeMetrics computedAt (compute_all_metrics store))

/-- Initial filesystem state for the C9 witness: a previous snapshot is in
place. -/
def c9fs0 : FsState := ⟨some "old".toList, none⟩

/-- Store for the C9 witness. -/
def c9store : List ObjectMeta := [⟨"a/x".toList, 1, 2⟩]

theorem c9_witness :
    (({ canonical := some "old".toList, temp := some [] } : FsState)).canonical
      = c9fs0.canonical := by
  have h := c9_atomic_persist c9fs0 c9store 7
  exact h.2.1 { canonical := some "old".toList, temp := some [] } (by decide)
